import Mathlib

/-!
# Verification of the exercism-bench crawler/bencher core

Shallow embedding of the Go sources of `exercism-bench`:

* Go strings are embedded as `List Char` (the pages scanned are ASCII
  HTML; byte indices and char indices coincide on the inputs handled).
* Go `float64` metric fields are embedded as exact rationals `ℚ`:
  the ordering and equality tests performed by the program on those
  fields are comparisons of the parsed decimal values.
* Go maps with `struct{}` values are embedded as duplicate-free lists,
  maps with string/pointer values as association lists updated in place
  (Go map semantics: one entry per key, assignment overwrites).
* Fallible Go functions returning `(value, error)` become `Except`/`Option`.
* The fixed regular expressions of the program are embedded as bespoke
  scanners built from small backtracking combinators mirroring the
  leftmost-first (Perl-preference) match semantics of Go's `regexp`
  package on those patterns.
-/

set_option maxRecDepth 100000

namespace ExercismBench

/-- Go strings, as lists of characters. -/
abbrev Str := List Char

/-- Coerce a Lean string literal to the embedding type. -/
def strOf (s : String) : Str := s.toList

/-! ## `strings` package primitives -/

/-- Model of Go `strings.Index`: index of the first occurrence of `pat`
in `s` (`none` for Go's `-1`). `strings.Index(s, "") = 0`. -/
def strIndex : Str → Str → Option Nat
  | [], pat => if pat = [] then some 0 else none
  | c :: rest, pat =>
      if pat.isPrefixOf (c :: rest) then some 0
      else (strIndex rest pat).map (· + 1)

/-- `pat` occurs in `s` starting at position `i`. -/
def occursAt (s pat : Str) (i : Nat) : Prop := pat.isPrefixOf (s.drop i)

instance (s pat : Str) (i : Nat) : Decidable (occursAt s pat i) := by
  unfold occursAt; infer_instance

/-- `strIndex` returns exactly the least occurrence position. -/
theorem strIndex_eq_some_iff :
    ∀ (s pat : Str) (i : Nat),
      strIndex s pat = some i ↔
        occursAt s pat i ∧ ∀ j, j < i → ¬ occursAt s pat j := by
  intro s
  induction s with
  | nil =>
      intro pat i
      have hocc : ∀ j, occursAt [] pat j ↔ pat = [] := by
        intro j
        unfold occursAt
        simp [List.isPrefixOf_iff_prefix]
      by_cases hp : pat = []
      · subst hp
        unfold strIndex
        simp only [if_pos rfl]
        constructor
        · intro h
          injection h with h
          subst h
          exact ⟨(hocc 0).mpr rfl, fun j hj => absurd hj (by omega)⟩
        · rintro ⟨-, hmin⟩
          rcases Nat.eq_zero_or_pos i with h0 | h0
          · rw [h0]; simp
          · exact absurd ((hocc 0).mpr rfl) (hmin 0 h0)
      · unfold strIndex
        simp only [if_neg hp]
        constructor
        · intro h; cases h
        · rintro ⟨h1, -⟩
          exact absurd ((hocc i).mp h1) hp
  | cons c rest ih =>
      intro pat i
      unfold strIndex
      by_cases hp : pat.isPrefixOf (c :: rest)
      · simp only [if_pos hp]
        constructor
        · intro h
          injection h with h
          subst h
          exact ⟨hp, fun j hj => absurd hj (by omega)⟩
        · rintro ⟨hi, hmin⟩
          rcases Nat.eq_zero_or_pos i with h0 | h0
          · rw [h0]
          · exact absurd hp (hmin 0 h0)
      · simp only [if_neg hp, Option.map_eq_some']
        constructor
        · rintro ⟨j, hj, rfl⟩
          obtain ⟨h1, h2⟩ := (ih pat j).mp hj
          refine ⟨h1, ?_⟩
          intro k hk
          cases k with
          | zero => exact hp
          | succ k' => exact h2 k' (by omega)
        · rintro ⟨hi, hmin⟩
          cases i with
          | zero => exact absurd hi hp
          | succ i' =>
              exact ⟨i', (ih pat i').mpr
                ⟨hi, fun j hj => hmin (j + 1) (by omega)⟩, rfl⟩

/-- `strIndex` returns `none` exactly when `pat` occurs nowhere. -/
theorem strIndex_eq_none_iff (s pat : Str) :
    strIndex s pat = none ↔ ∀ j, ¬ occursAt s pat j := by
  constructor
  · intro h j hj
    have hex : ∃ i, occursAt s pat i := ⟨j, hj⟩
    have hi := Nat.find_spec hex
    have hmin : ∀ k, k < Nat.find hex → ¬ occursAt s pat k :=
      fun k hk => Nat.find_min hex hk
    rw [(strIndex_eq_some_iff s pat (Nat.find hex)).mpr ⟨hi, hmin⟩] at h
    cases h
  · intro h
    cases hix : strIndex s pat with
    | none => rfl
    | some i => exact absurd ((strIndex_eq_some_iff s pat i).mp hix).1 (h i)

/-- Model of Go `strings.ReplaceAll` (fuelled so the definition is
structural and kernel-executable; fuel `s.length` always suffices since
every step consumes at least one character of `s`, and exhaustion
returns the remainder unchanged, which is never reached from the
wrapper below). An empty `pat` is returned unchanged; all patterns used
by the program are non-empty. -/
def replaceAllF : Nat → Str → Str → Str → Str
  | 0, s, _, _ => s
  | _ + 1, [], _, _ => []
  | fuel + 1, c :: rest, pat, rep =>
      if pat ≠ [] ∧ pat.isPrefixOf (c :: rest) then
        rep ++ replaceAllF fuel ((c :: rest).drop pat.length) pat rep
      else
        c :: replaceAllF fuel rest pat rep

/-- Model of Go `strings.ReplaceAll s pat rep`. -/
def replaceAll (s pat rep : Str) : Str := replaceAllF s.length s pat rep

/-! ## HTML entity decoding

`html.UnescapeString` is a standard-library collaborator of the
extractor (not part of this repository). Modelled from the spec: "All
extracted text passes through HTML-entity decoding"; the model decodes
the five entities that this repository's own decoder (`normalizeCode`
in main.go) handles, by a single deterministic left-to-right scan. -/

/-- One entity at the head of `s`: decoded character and remainder. -/
def entityAt (s : Str) : Option (Char × Str) :=
  if (strOf "&amp;").isPrefixOf s then some ('&', s.drop 5)
  else if (strOf "&lt;").isPrefixOf s then some ('<', s.drop 4)
  else if (strOf "&gt;").isPrefixOf s then some ('>', s.drop 4)
  else if (strOf "&quot;").isPrefixOf s then some ('"', s.drop 6)
  else if (strOf "&#39;").isPrefixOf s then some (Char.ofNat 39, s.drop 5)
  else none

/-- Fuelled scan (fuel `s.length` suffices; exhaustion copies the rest). -/
def htmlUnescapeF : Nat → Str → Str
  | 0, s => s
  | _ + 1, [] => []
  | fuel + 1, c :: rest =>
      match entityAt (c :: rest) with
      | some (d, rem) => d :: htmlUnescapeF fuel rem
      | none => c :: htmlUnescapeF fuel rest

/-- Modelled from the spec: HTML-entity decoding (`html.UnescapeString`). -/
def htmlUnescape (s : Str) : Str := htmlUnescapeF s.length s

/-! ## Content extractor (part_003) -/

def testSuiteStartPattern : Str := strOf "<div class='pane pane-2 test-suite'>"

def testSuiteEndPattern : Str := strOf "</div>"

def codeStartPattern : Str := strOf "<code class='language-go'>"

def codeEndPattern : Str := strOf "</code>"

def solutionCodeStartPattern : Str :=
  strOf "<pre class='line-numbers solution-code'>" ++ codeStartPattern

def solutionCodeEndPattern : Str := codeEndPattern ++ strOf "</pre>"

def testFileNameStartPattern : Str := strOf "<h3>"

def testFileNameEndPattern : Str := strOf "</h3>"

/-- `getFirstMatch` of part_003: the substring between the first
occurrence of `spat` and the nearest following occurrence of `epat`,
plus the remaining input after that `epat`; `("", "")` when either is
not found. -/
def getFirstMatch (input spat epat : Str) : Str × Str :=
  match strIndex input spat with
  | none => ([], [])
  | some sind0 =>
      let tail := input.drop (sind0 + spat.length)
      match strIndex tail epat with
      | none => ([], [])
      | some eind => (tail.take eind, tail.drop (eind + epat.length))

/-- `[[:word:]]` character class of Go's regexp (ASCII). -/
def isWordChar (c : Char) : Bool := c.isAlphanum || c = '_'

def avatarMarker : Str := strOf "Avatar of "

/-- A match of `authorRE` = `Avatar of (([[:word:]]|-)+)` anchored at the
head of `s`: the capture group (maximal run, nothing follows it in the
pattern so greediness is unconstrained), or `none`. -/
def authorAt (s : Str) : Option Str :=
  if avatarMarker.isPrefixOf s then
    let run := (s.drop avatarMarker.length).takeWhile fun c => isWordChar c || c = '-'
    if run = [] then none else some run
  else none

/-- `authorRE.FindStringSubmatch`, group 1: leftmost match. -/
def findAuthor : Str → Option Str
  | [] => authorAt []
  | c :: rest => (authorAt (c :: rest)) <|> findAuthor rest

inductive ExtractErr
  | noSolutionCode
  | noAuthorName
  | noTestSuite
deriving DecidableEq, Repr

/-- `extractSolutionCode` of part_003: author name via `authorRE`, then
the solution code region between the solution-code marker pair; both
HTML-entity decoded. Result is `(code, author)` as in the source. -/
def extractSolutionCode (solutionPage : Str) : Except ExtractErr (Str × Str) :=
  match findAuthor solutionPage with
  | none => .error .noAuthorName
  | some ms1 =>
      let author := htmlUnescape ms1
      let m := (getFirstMatch solutionPage solutionCodeStartPattern solutionCodeEndPattern).1
      if m = [] then .error .noSolutionCode
      else .ok (htmlUnescape m, author)

/-- Go map assignment `m[k] = v` on an association-list embedding:
overwrites the entry for `k` if present, otherwise adds one. -/
def mapUpdate : List (Str × Str) → Str → Str → List (Str × Str)
  | [], k, v => [(k, v)]
  | (k', v') :: rest, k, v =>
      if k' = k then (k', v) :: rest else (k', v') :: mapUpdate rest k v

/-- Go map lookup `m[k]` on the association-list embedding. -/
def lookupA : List (Str × Str) → Str → Option Str
  | [], _ => none
  | (k', v') :: rest, k => if k' = k then some v' else lookupA rest k

/-- The `for` loop of `extractTestSuite`: repeatedly pull a
`<h3>`-delimited file name and a code region out of the suite region
`ts`, accumulating into the suite map. Fuelled: every iteration consumes
at least the two name markers from `ts`, so fuel `ts.length + 1`
suffices and the exhaustion branch is unreachable from the wrapper. -/
def extractFilesLoop : Nat → Str → List (Str × Str) → Except ExtractErr (List (Str × Str))
  | 0, _, _ => .error .noTestSuite
  | fuel + 1, ts, suite =>
      let nm := getFirstMatch ts testFileNameStartPattern testFileNameEndPattern
      if nm.1 = [] then
        if suite = [] then .error .noTestSuite else .ok suite
      else
        let name := htmlUnescape nm.1
        let cm := getFirstMatch nm.2 codeStartPattern codeEndPattern
        if cm.1 = [] then .error .noTestSuite
        else extractFilesLoop fuel cm.2 (mapUpdate suite name (htmlUnescape cm.1))

/-- `extractTestSuite` of part_003: locate the test-suite region, then
extract `(file name, code)` pairs into the suite map. -/
def extractTestSuite (solutionPage : Str) : Except ExtractErr (List (Str × Str)) :=
  let ts := (getFirstMatch solutionPage testSuiteStartPattern testSuiteEndPattern).1
  if ts = [] then .error .noTestSuite
  else extractFilesLoop (ts.length + 1) ts []

/-! ## main.go variant of the extractor (claims about `normalizeCode`)

main.go's `normalizeCode` ranges over a Go *map* of five replacement
pairs; Go map iteration order is unspecified (randomized per run), so
the replacement order is a parameter of the embedding. -/

/-- The five replacement pairs of `normalizeCode`'s map `rm`. -/
def entityPairs : List (Str × Str) :=
  [ (strOf "&amp;", strOf "&")
  , (strOf "&quot;", strOf "\"")
  , (strOf "&lt;", strOf "<")
  , (strOf "&gt;", strOf ">")
  , (strOf "&#39;", strOf "'") ]

/-- `normalizeCode` of main.go, with the map-iteration order made
explicit: one `strings.ReplaceAll` per pair, in order `ord`. The Go
function realizes `normalizeCodeWith ord` for some permutation `ord`
of `entityPairs` chosen by the runtime at each call. -/
def normalizeCodeWith (ord : List (Str × Str)) (content : Str) : Str :=
  ord.foldl (fun c pr => replaceAll c pr.1 pr.2) content

/-- `codeStartPattern` of main.go (the full `<pre …><code …>` string). -/
def mainCodeStartPattern : Str :=
  strOf "<pre class='line-numbers solution-code'><code class='language-go'>"

/-- `codeEndPattern` of main.go. -/
def mainCodeEndPattern : Str := strOf "</code></pre>"

/-- `extractSolutionCode` of main.go (string-returning variant): region
between the code marker pair, normalized; `"NO CODE"` when a marker is
missing. Parameterized by the map-iteration order of `normalizeCode`. -/
def extractSolutionCodeMain (ord : List (Str × Str)) (content : Str) : Str :=
  match strIndex content mainCodeStartPattern with
  | none => strOf "NO CODE"
  | some ind =>
      let content1 := content.drop (ind + mainCodeStartPattern.length)
      match strIndex content1 mainCodeEndPattern with
      | none => strOf "NO CODE"
      | some ind2 => normalizeCodeWith ord (content1.take ind2)

/-! ## Scanner combinators for the fixed regular expressions

Continuation-passing backtracking scanners: a scanner consumes input
and hands the remainder to the continuation; `none` from the
continuation drives backtracking, mirroring the leftmost-first
(Perl-preference) submatch semantics Go's `regexp` uses for these
patterns. -/

/-- Literal string. -/
def mlit (pat : Str) (s : Str) (k : Str → Option Str) : Option Str :=
  if pat.isPrefixOf s then k (s.drop pat.length) else none

/-- Greedy `*` over a one-character class, with backtracking. -/
def manyCls (p : Char → Bool) : Str → (Str → Option Str) → Option Str
  | [], k => k []
  | c :: rest, k =>
      if p c then (manyCls p rest k) <|> k (c :: rest) else k (c :: rest)

/-- Greedy `+` over a one-character class, with backtracking. -/
def someCls (p : Char → Bool) (s : Str) (k : Str → Option Str) : Option Str :=
  match s with
  | [] => none
  | c :: rest => if p c then manyCls p rest k else none

/-- `?` (greedy option). -/
def mopt (m : Str → (Str → Option Str) → Option Str)
    (s : Str) (k : Str → Option Str) : Option Str :=
  (m s k) <|> k s

/-- `.` (any single character). -/
def anyChar (s : Str) (k : Str → Option Str) : Option Str :=
  match s with
  | [] => none
  | _ :: rest => k rest

/-- Exactly `n` characters of a class (for `(..){16}`-style counts). -/
def countCls (p : Char → Bool) : Nat → Str → (Str → Option Str) → Option Str
  | 0, s, k => k s
  | n + 1, s, k =>
      match s with
      | [] => none
      | c :: rest => if p c then countCls p n rest k else none

/-- Run a scanner anchored at the head of `s`; on success the remaining
suffix after the whole match. -/
def runM (m : Str → (Str → Option Str) → Option Str) (s : Str) : Option Str :=
  m s some

/-- `FindString`-style leftmost match: the matched substring and the
suffix following it. -/
def reFind (m : Str → (Str → Option Str) → Option Str) :
    Str → Option (Str × Str)
  | [] => (runM m []).map (fun rem => (([] : Str), rem))
  | c :: rest =>
      match runM m (c :: rest) with
      | some rem =>
          some ((c :: rest).take ((c :: rest).length - rem.length), rem)
      | none => reFind m rest

/-- `FindAllString(s, -1)`: successive leftmost non-overlapping matches.
Fuelled (every match of the scanners used here is non-empty, so fuel
`s.length + 1` always suffices; the empty-match guard is defensive). -/
def reFindAll (m : Str → (Str → Option Str) → Option Str) :
    Nat → Str → List Str
  | 0, _ => []
  | fuel + 1, s =>
      match reFind m s with
      | none => []
      | some (mt, rest) => mt :: (if mt = [] then [] else reFindAll m fuel rest)

/-- Last `n` characters removed (for stripping a literal suffix of a match). -/
def dropSuffix (l : Str) (n : Nat) : Str := l.take (l.length - n)

/-- `[[:xdigit:]]` (ASCII). -/
def isHexChar (c : Char) : Bool :=
  c.isDigit || (decide ('a' ≤ c) && decide (c ≤ 'f')) || (decide ('A' ≤ c) && decide (c ≤ 'F'))

/-- `[[:alnum:]]|_` (ASCII), the class of `benchNameRE`'s repeated group. -/
def isAlnumU (c : Char) : Bool := c.isAlphanum || c == '_'

/-- Go regexp `\s` = `[\t\n\f\r ]`. -/
def isWS (c : Char) : Bool :=
  c == ' ' || c == '\t' || c == '\n' || c == '\r' || c == Char.ofNat 12

/-! ## Paginated discoverer (part_000) -/

/-- `solutionPathRE` = `solutions/(([[:xdigit:]][[:xdigit:]]){16})`
anchored at one position: the literal, then exactly 32 hex digits. -/
def solutionPathAt (s : Str) (k : Str → Option Str) : Option Str :=
  mlit (strOf "solutions/") s (fun s1 => countCls isHexChar 32 s1 k)

/-- `solutionPathRE.FindAllStringSubmatch(page, -1)[·][1]`: captured
32-hex-digit identifiers of all matches (the capture group is the
matched string minus the 10-character literal). -/
def pageUUIDs (page : Str) : List Str :=
  (reFindAll solutionPathAt (page.length + 1) page).map (fun mt => mt.drop 10)

def pageMarkerLit : Str := strOf "solutions?page="

def lastLit : Str := strOf "\">Last"

/-- `solutionGroupsNumberRE` = `solutions\?page=([[:digit:]]+)">Last`
anchored at one position. The digit run is greedy; since `">Last`
starts with a non-digit, backtracking cannot shorten it, so a match is
the literal, a maximal non-empty digit run, then `">Last`. -/
def groupsNumberAt (s : Str) (k : Str → Option Str) : Option Str :=
  mlit pageMarkerLit s (fun s1 =>
    someCls Char.isDigit s1 (fun s2 => mlit lastLit s2 k))

/-- `solutionGroupsNumberRE.FindStringSubmatch(page)[1]`: the captured
digit run of the leftmost match (the match minus its two literals). -/
def findGroupsNumber (page : Str) : Option Str :=
  (reFind groupsNumberAt page).map (fun pr =>
    dropSuffix (pr.1.drop pageMarkerLit.length) lastLit.length)

/-- Numeric value of a digit string. -/
def digitsVal (l : Str) : Nat := l.foldl (fun a c => a * 10 + (c.toNat - 48)) 0

/-- Model of `strconv.ParseUint(l, 10, 64)`: the value of a non-empty
all-digit string below `2^64`, `none` (Go: an error) otherwise. -/
def parseUint64 (l : Str) : Option Nat :=
  if l ≠ [] ∧ l.all Char.isDigit ∧ digitsVal l < 2 ^ 64 then some (digitsVal l) else none

inductive DiscErr
  | firstPageFetch
  | noGroupsNumber
  | badPageTotal
deriving DecidableEq, Repr

/-- Go map-as-set insertion `uuids[x] = struct{}{}` on a duplicate-free
list embedding. -/
def insertNew (acc : List Str) (x : Str) : List Str :=
  if x ∈ acc then acc else acc ++ [x]

/-- The fan-out phase of `getSolutionUUIDs`: for pages `1..total`
(index `i` fetches page `i+1`), insert every captured identifier of a
successfully fetched page into the shared set; a failed fetch (`none`)
is logged in Go and contributes nothing. Task completion order does not
affect the resulting set, so the fold is in page order. `collectStep`
is the per-page body: a failed fetch contributes nothing, a fetched
page has each captured identifier inserted into the set. -/
def collectStep (acc : List Str) : Option Str → List Str
  | none => acc
  | some page => (pageUUIDs page).foldl insertNew acc

def collectUUIDs (pages : Nat → Option Str) (total : Nat) : List Str :=
  (List.range total).foldl (fun acc i => collectStep acc (pages i)) []

theorem collectStep_none (acc : List Str) : collectStep acc none = acc := rfl

theorem collectStep_some (acc : List Str) (page : Str) :
    collectStep acc (some page) = (pageUUIDs page).foldl insertNew acc := rfl

/-- `getSolutionUUIDs` of part_000. The network fetches are injected:
`firstPage` is the result of the initial `solutions` fetch, `pages i`
the result of fetching `solutions?page=(i+1)`. Page-count marker or
number-parse failure aborts with an error before any fan-out. -/
def getSolutionUUIDs (firstPage : Option Str) (pages : Nat → Option Str) :
    Except DiscErr (List Str) :=
  match firstPage with
  | none => .error .firstPageFetch
  | some fp =>
      match findGroupsNumber fp with
      | none => .error .noGroupsNumber
      | some digits =>
          match parseUint64 digits with
          | none => .error .badPageTotal
          | some total => .ok (collectUUIDs pages total)

/-! ## Benchmark stats, comparator and sorter (part_006) -/

/-- `benchStats` of part_006. Optional fields carry the sentinel `-1`
when the report omits them. `float64` fields are embedded as exact
rationals. -/
structure benchStats where
  time : ℚ
  throughput : ℚ
  mem : ℤ
  allocs : ℤ
deriving DecidableEq, Repr

/-- `solutionStats` of part_006; `benchs` is the
`map[string]*benchStats` as an association list (a missing key is Go's
nil pointer). -/
structure solutionStats where
  name : Str
  benchs : List (Str × benchStats)
  size : ℕ
deriving DecidableEq, Repr

/-- Go map lookup `benchs[benchName]` (`none` = nil pointer). -/
def lookupB : List (Str × benchStats) → Str → Option benchStats
  | [], _ => none
  | (k', v) :: rest, k => if k' = k then some v else lookupB rest k

/-- The boolean returned by the `sort.SliceStable` closure of
`sortStatsByBench`, given the two dereferenced metrics and code sizes. -/
def metricLess (lh rh : benchStats) (sa sb : ℕ) : Bool :=
  decide (lh.time < rh.time) ||
  (decide (lh.time = rh.time) && decide (lh.throughput < rh.throughput)) ||
  (decide (lh.time = rh.time) && decide (lh.throughput = rh.throughput) &&
    decide (lh.mem < rh.mem)) ||
  (decide (lh.time = rh.time) && decide (lh.throughput = rh.throughput) &&
    decide (lh.mem = rh.mem) && decide (lh.allocs < rh.allocs)) ||
  (decide (lh.time = rh.time) && decide (lh.throughput = rh.throughput) &&
    decide (lh.mem = rh.mem) && decide (lh.allocs = rh.allocs) &&
    decide (sa < sb))

/-- The comparator closure of `sortStatsByBench`, with the nil-pointer
dereference explicit: `none` when either record lacks a metric for
`benchName` — there the Go closure dereferences a nil `*benchStats`
and panics. -/
def statsLess (benchName : Str) (a b : solutionStats) : Option Bool :=
  match lookupB a.benchs benchName, lookupB b.benchs benchName with
  | some lh, some rh => some (metricLess lh rh a.size b.size)
  | _, _ => none

/-- Totalized metric lookup: the zero metric is substituted on the nil
branch the Go code crashes on, so the sort below is a total function.
Under the precondition that every sorted record carries `benchName`
(see the safety claim) this equals the real dereference, and only
under that precondition do the sort theorems apply. -/
def metOf (s : solutionStats) (benchName : Str) : benchStats :=
  (lookupB s.benchs benchName).getD ⟨0, 0, 0, 0⟩

/-- Totalized comparator (coincides with `statsLess` whenever both
lookups succeed). -/
def statsLessTot (benchName : Str) (a b : solutionStats) : Bool :=
  metricLess (metOf a benchName) (metOf b benchName) a.size b.size

/-- The non-strict order induced by the `sort.SliceStable` less
function: `a ≤ b` iff `¬ less(b, a)`. -/
def statsLE (benchName : Str) (a b : solutionStats) : Bool :=
  ! statsLessTot benchName b a

/-- `sortStatsByBench` of part_006: `sort.SliceStable` with the lexicographic
less closure, embedded as the stable merge sort over the induced
non-strict order. -/
def sortStatsByBench (sstats : List solutionStats) (benchName : Str) :
    List solutionStats :=
  sstats.mergeSort (statsLE benchName)

/-! ## Benchmark report parser (part_006 `runBench`) -/

/-- `benchNameRE` = `Benchmark([[:alnum:]]|_)+` anchored at one position. -/
def benchNameAtM (s : Str) (k : Str → Option Str) : Option Str :=
  mlit (strOf "Benchmark") s (fun s1 => someCls isAlnumU s1 k)

/-- `benchTimeRE` = `([[:digit:]]+(.[[:digit:]]+)?) ns/op` anchored at
one position (the `.` is an unescaped any-character, as in the source). -/
def benchTimeAt (s : Str) (k : Str → Option Str) : Option Str :=
  someCls Char.isDigit s (fun s1 =>
    mopt (fun t k2 => anyChar t (fun t1 => someCls Char.isDigit t1 k2)) s1
      (fun s2 => mlit (strOf " ns/op") s2 k))

/-- `benchThroughputRE` = `([[:digit:]]+(.[[:digit:]]+)?) MB/s`. -/
def benchThroughputAt (s : Str) (k : Str → Option Str) : Option Str :=
  someCls Char.isDigit s (fun s1 =>
    mopt (fun t k2 => anyChar t (fun t1 => someCls Char.isDigit t1 k2)) s1
      (fun s2 => mlit (strOf " MB/s") s2 k))

/-- `benchMemRE` = `([[:digit:]]+) B/op\s+([[:digit:]]+) allocs/op`. -/
def benchMemAt (s : Str) (k : Str → Option Str) : Option Str :=
  someCls Char.isDigit s (fun s1 =>
    mlit (strOf " B/op") s1 (fun s2 =>
      someCls isWS s2 (fun s3 =>
        someCls Char.isDigit s3 (fun s4 =>
          mlit (strOf " allocs/op") s4 k))))

/-- `benchStatsRE`, the composite per-line pattern
`name(-N)?\s+iters\s+time-ns/op\s+(throughput-MB/s\s+)?(mem-B/op\s+allocs)?`
built by `fmt.Sprintf` in the source. -/
def benchStatsAt (s : Str) (k : Str → Option Str) : Option Str :=
  benchNameAtM s (fun s1 =>
    mopt (fun t k2 => mlit (strOf "-") t (fun t1 => someCls Char.isDigit t1 k2)) s1
      (fun s2 =>
        someCls isWS s2 (fun s3 =>
          someCls Char.isDigit s3 (fun s4 =>
            someCls isWS s4 (fun s5 =>
              benchTimeAt s5 (fun s6 =>
                someCls isWS s6 (fun s7 =>
                  mopt (fun t k2 => benchThroughputAt t (fun t1 => someCls isWS t1 k2)) s7
                    (fun s8 => mopt benchMemAt s8 k))))))))

/-- `benchNameRE.FindString(l)` (`""` when no match). -/
def findBenchName (l : Str) : Str :=
  match reFind benchNameAtM l with
  | none => []
  | some pr => pr.1

/-- `benchTimeRE.FindStringSubmatch(l)[1]`: the matched string minus
its 6-character literal suffix ` ns/op`. -/
def findTimeTok (l : Str) : Option Str :=
  (reFind benchTimeAt l).map (fun pr => dropSuffix pr.1 6)

/-- `benchThroughputRE.FindStringSubmatch(l)[1]` (suffix ` MB/s`). -/
def findThroughputTok (l : Str) : Option Str :=
  (reFind benchThroughputAt l).map (fun pr => dropSuffix pr.1 5)

/-- `benchMemRE.FindStringSubmatch(l)[1], [2]`: group 1 is the leading
digit run (the next matched character ` ` is a non-digit), group 2 the
digit run preceding the 10-character literal suffix ` allocs/op` (the
character before it, from `\s+`, is a non-digit). -/
def findMemToks (l : Str) : Option (Str × Str) :=
  (reFind benchMemAt l).map (fun pr =>
    (pr.1.takeWhile Char.isDigit,
      ((dropSuffix pr.1 10).reverse.takeWhile Char.isDigit).reverse))

/-- Model of `strconv.ParseFloat` restricted to the token shapes the
time/throughput capture groups produce (`digits`, `digits.digits`,
`digits⟨e|E⟩digits`; any other separator character is a syntax error).
The value is an exact rational: binary rounding to float64 and the
range error for astronomical exponents are idealized away (the report
format never produces either). -/
def parseFloatGo (l : Str) : Option ℚ :=
  let ip := l.takeWhile Char.isDigit
  let rest := l.drop ip.length
  if ip = [] then none
  else
    match rest with
    | [] => some ((digitsVal ip : ℚ))
    | sep :: frac =>
        if frac = [] ∨ ¬ (frac.all Char.isDigit) then none
        else if sep = '.' then
          some ((digitsVal ip : ℚ) + (digitsVal frac : ℚ) / ((10 : ℚ) ^ frac.length))
        else if sep = 'e' ∨ sep = 'E' then
          some ((digitsVal ip : ℚ) * (10 : ℚ) ^ digitsVal frac)
        else none

/-- Model of `strconv.ParseInt(l, 10, 64)` on the non-negative digit
captures produced here. -/
def parseInt64 (l : Str) : Option ℤ :=
  if l ≠ [] ∧ l.all Char.isDigit ∧ digitsVal l < 2 ^ 63 then
    some ((digitsVal l : ℤ))
  else none

inductive BenchErr
  | noBenchmarks
  | noTimeData
  | badNumber
deriving DecidableEq, Repr

/-- The per-line body of `runBench`'s loop: a metric initialized with
the `-1` sentinels, the mandatory time (the source `panic`s — here
`.noTimeData` — if the time pattern is absent from the line), and the
optional throughput and memory groups, which keep their sentinels when
their patterns are absent. -/
def parseBenchLine (l : Str) : Except BenchErr benchStats := do
  let t ← match findTimeTok l with
    | none => throw BenchErr.noTimeData
    | some tok =>
        match parseFloatGo tok with
        | none => throw BenchErr.badNumber
        | some v => pure v
  let tp ← match findThroughputTok l with
    | none => pure (-1 : ℚ)
    | some tok =>
        match parseFloatGo tok with
        | none => throw BenchErr.badNumber
        | some v => pure v
  let ma ← match findMemToks l with
    | none => pure ((-1 : ℤ), (-1 : ℤ))
    | some (t1, t2) =>
        match parseInt64 t1, parseInt64 t2 with
        | some v1, some v2 => pure (v1, v2)
        | _, _ => throw BenchErr.badNumber
  pure ⟨t, tp, ma.1, ma.2⟩

/-- Go map assignment on the `map[string]*benchStats` embedding. -/
def bmapUpdate : List (Str × benchStats) → Str → benchStats → List (Str × benchStats)
  | [], k, v => [(k, v)]
  | (k', v') :: rest, k, v =>
      if k' = k then (k', v) :: rest else (k', v') :: bmapUpdate rest k v

/-- The parsing phase of `runBench` of part_006, on the combined output
blob `out` of the external `go test -bench` invocation (the subprocess
itself is an injected collaborator): all composite-pattern matches, an
error if there are none, then one map entry per benchmark name (last
occurrence wins). -/
def runBench (out : Str) : Except BenchErr (List (Str × benchStats)) :=
  let lines := reFindAll benchStatsAt (out.length + 1) out
  if lines = [] then .error .noBenchmarks
  else
    lines.foldlM
      (fun acc l => (parseBenchLine l).map (fun st => bmapUpdate acc (findBenchName l) st))
      []

/-! ## Claim C10: comparator nil-dereference safety -/

/-- C10: `sortStatsByBench` is only safe under the precondition that
every record in the sequence has an entry for the given benchmark name:
under it the comparator's nil-dereference branch is unreachable (the
comparison is always defined), while for an input record lacking the
benchmark name the comparison dereferences a nil metric (modelled as
`none`). -/
theorem C10_sorter_nil_safety :
    (∀ (benchName : Str) (l : List solutionStats) (a b : solutionStats),
        (∀ s ∈ l, (lookupB s.benchs benchName).isSome) →
        a ∈ l → b ∈ l → (statsLess benchName a b).isSome)
    ∧ statsLess (strOf "b") ⟨strOf "X", [], 5⟩ ⟨strOf "X", [], 5⟩ = none := by
  constructor
  · intro bn l a b h ha hb
    have h1 := h a ha
    have h2 := h b hb
    unfold statsLess
    cases hla : lookupB a.benchs bn with
    | none => rw [hla] at h1; cases h1
    | some lh =>
        cases hlb : lookupB b.benchs bn with
        | none => rw [hlb] at h2; cases h2
        | some rh => simp
  · rfl

/-- Witness for C10: the safety part applied at a concrete two-record
sequence in which both records carry the benchmark. -/
theorem C10_sorter_nil_safety_witness :
    (statsLess (strOf "b")
      ⟨strOf "X", [(strOf "b", ⟨5, -1, -1, -1⟩)], 5⟩
      ⟨strOf "Y", [(strOf "b", ⟨4, -1, -1, -1⟩)], 7⟩).isSome :=
  C10_sorter_nil_safety.1 (strOf "b")
    [⟨strOf "X", [(strOf "b", ⟨5, -1, -1, -1⟩)], 5⟩,
     ⟨strOf "Y", [(strOf "b", ⟨4, -1, -1, -1⟩)], 7⟩]
    _ _ (by decide) (by simp) (by simp)

/-! ## Claim C4: the absent-throughput sentinel in comparisons -/

/-- C4 counterexample: at equal time, the record whose throughput is
absent (sentinel `-1`) compares strictly less than the record with
throughput `100.0`, and the stable sort moves it in front — the
comparison is decided purely by the sentinel's magnitude, and absent
sorts before (not after) any present value. -/
theorem C4_counterexample :
    statsLess (strOf "b")
      ⟨strOf "X", [(strOf "b", ⟨5, -1, -1, -1⟩)], 5⟩
      ⟨strOf "Y", [(strOf "b", ⟨5, 100, -1, -1⟩)], 5⟩ = some true
    ∧ sortStatsByBench
        [⟨strOf "Y", [(strOf "b", ⟨5, 100, -1, -1⟩)], 5⟩,
         ⟨strOf "X", [(strOf "b", ⟨5, -1, -1, -1⟩)], 5⟩] (strOf "b")
      = [⟨strOf "X", [(strOf "b", ⟨5, -1, -1, -1⟩)], 5⟩,
         ⟨strOf "Y", [(strOf "b", ⟨5, 100, -1, -1⟩)], 5⟩] := by
  constructor
  · decide
  · norm_num [sortStatsByBench, List.mergeSort, List.splitInTwo, List.splitAt,
      List.splitAt.go, List.merge, statsLE, statsLessTot, metOf, lookupB, metricLess]

/-- C4 amended: in `sortStatsByBench`, when two records have equal
time, a record whose throughput is absent (sentinel `-1`) compares
strictly less than a record with any present (non-negative) throughput:
the sentinel participates with its magnitude, so absent sorts before —
not after — any present value. -/
theorem C4_amended_sentinel_sorts_first :
    ∀ (bn : Str) (a b : solutionStats) (lh rh : benchStats),
      lookupB a.benchs bn = some lh → lookupB b.benchs bn = some rh →
      lh.time = rh.time → lh.throughput = -1 → 0 ≤ rh.throughput →
      statsLess bn a b = some true := by
  intro bn a b lh rh hla hlb htime htput hpos
  have hlt : lh.throughput < rh.throughput := by rw [htput]; linarith
  unfold statsLess
  rw [hla, hlb]
  simp [metricLess, htime, hlt]

/-- Witness for C4 amended: the two records of the counterexample. -/
theorem C4_amended_sentinel_sorts_first_witness :
    statsLess (strOf "b")
      ⟨strOf "X", [(strOf "b", ⟨5, -1, -1, -1⟩)], 5⟩
      ⟨strOf "Y", [(strOf "b", ⟨5, 100, -1, -1⟩)], 5⟩ = some true :=
  C4_amended_sentinel_sorts_first (strOf "b")
    ⟨strOf "X", [(strOf "b", ⟨5, -1, -1, -1⟩)], 5⟩
    ⟨strOf "Y", [(strOf "b", ⟨5, 100, -1, -1⟩)], 5⟩
    ⟨5, -1, -1, -1⟩ ⟨5, 100, -1, -1⟩
    (by decide) (by decide) (by decide) (by decide) (by decide)

/-! ## Claim C5: fatal failure on a missing or unparsable page count -/

/-- C5: if the first result page lacks the page-count marker, or the
number embedded in it does not parse as a 64-bit unsigned integer,
discovery returns a fatal error instead of proceeding with any page
count. -/
theorem C5_page_count_marker_fatal :
    ∀ (fp : Str) (pages : Nat → Option Str),
      (findGroupsNumber fp = none →
        getSolutionUUIDs (some fp) pages = .error .noGroupsNumber)
      ∧ (∀ digits, findGroupsNumber fp = some digits → parseUint64 digits = none →
          getSolutionUUIDs (some fp) pages = .error .badPageTotal) := by
  intro fp pages
  constructor
  · intro h
    simp [getSolutionUUIDs, h]
  · intro digits h1 h2
    simp [getSolutionUUIDs, h1, h2]

/-- Witness for C5: a page without the marker, and a page whose marker
number overflows 64 bits. -/
theorem C5_page_count_marker_fatal_witness :
    getSolutionUUIDs (some (strOf "<html>no marker here</html>")) (fun _ => none)
      = .error .noGroupsNumber
    ∧ getSolutionUUIDs
        (some (strOf "solutions?page=99999999999999999999\">Last")) (fun _ => none)
      = .error .badPageTotal :=
  ⟨(C5_page_count_marker_fatal (strOf "<html>no marker here</html>") (fun _ => none)).1
      (by decide),
   (C5_page_count_marker_fatal (strOf "solutions?page=99999999999999999999\">Last")
      (fun _ => none)).2 (strOf "99999999999999999999") (by decide) (by decide)⟩

/-! ## Helper lemmas for the extractor claims -/

theorem extractFilesLoop_ok_ne_nil :
    ∀ (fuel : Nat) (ts : Str) (acc suite : List (Str × Str)),
      extractFilesLoop fuel ts acc = .ok suite → suite ≠ [] := by
  intro fuel
  induction fuel with
  | zero =>
      intro ts acc suite h
      simp [extractFilesLoop] at h
  | succ n ih =>
      intro ts acc suite h
      simp only [extractFilesLoop] at h
      by_cases h1 : (getFirstMatch ts testFileNameStartPattern testFileNameEndPattern).1 = []
      · rw [if_pos h1] at h
        by_cases h2 : acc = []
        · rw [if_pos h2] at h; cases h
        · rw [if_neg h2] at h
          injection h with h
          subst h
          exact h2
      · rw [if_neg h1] at h
        by_cases h3 : (getFirstMatch
            (getFirstMatch ts testFileNameStartPattern testFileNameEndPattern).2
            codeStartPattern codeEndPattern).1 = []
        · rw [if_pos h3] at h; cases h
        · rw [if_neg h3] at h
          exact ih _ _ _ h

theorem extractFilesLoop_error_kind :
    ∀ (fuel : Nat) (ts : Str) (acc : List (Str × Str)) (e : ExtractErr),
      extractFilesLoop fuel ts acc = .error e → e = .noTestSuite := by
  intro fuel
  induction fuel with
  | zero =>
      intro ts acc e h
      simp only [extractFilesLoop] at h
      injection h with h
      exact h.symm
  | succ n ih =>
      intro ts acc e h
      simp only [extractFilesLoop] at h
      by_cases h1 : (getFirstMatch ts testFileNameStartPattern testFileNameEndPattern).1 = []
      · rw [if_pos h1] at h
        by_cases h2 : acc = []
        · rw [if_pos h2] at h
          injection h with h
          exact h.symm
        · rw [if_neg h2] at h; cases h
      · rw [if_neg h1] at h
        by_cases h3 : (getFirstMatch
            (getFirstMatch ts testFileNameStartPattern testFileNameEndPattern).2
            codeStartPattern codeEndPattern).1 = []
        · rw [if_pos h3] at h
          injection h with h
          exact h.symm
        · rw [if_neg h3] at h
          exact ih _ _ _ h

theorem mem_mapUpdate_fst :
    ∀ (m : List (Str × Str)) (k v x : Str),
      x ∈ (mapUpdate m k v).map Prod.fst → x ∈ m.map Prod.fst ∨ x = k := by
  intro m
  induction m with
  | nil =>
      intro k v x hx
      simp [mapUpdate] at hx
      exact Or.inr hx
  | cons pr rest ih =>
      intro k v x hx
      by_cases he : pr.1 = k
      · simp only [mapUpdate, if_pos he, List.map_cons, List.mem_cons] at hx
        rcases hx with hx | hx
        · exact Or.inl (by simp [hx])
        · exact Or.inl (by simp [hx])
      · simp only [mapUpdate, if_neg he, List.map_cons, List.mem_cons] at hx
        rcases hx with hx | hx
        · exact Or.inl (by simp [hx])
        · rcases ih k v x hx with h | h
          · exact Or.inl (by simp [h])
          · exact Or.inr h

theorem mapUpdate_keys_nodup :
    ∀ (m : List (Str × Str)) (k v : Str),
      (m.map Prod.fst).Nodup → ((mapUpdate m k v).map Prod.fst).Nodup := by
  intro m
  induction m with
  | nil => intro k v _; simp [mapUpdate]
  | cons pr rest ih =>
      intro k v hnd
      simp only [List.map_cons, List.nodup_cons] at hnd
      by_cases he : pr.1 = k
      · simp only [mapUpdate, if_pos he, List.map_cons, List.nodup_cons]
        exact ⟨hnd.1, hnd.2⟩
      · simp only [mapUpdate, if_neg he, List.map_cons, List.nodup_cons]
        refine ⟨?_, ih k v hnd.2⟩
        intro hmem
        rcases mem_mapUpdate_fst rest k v pr.1 hmem with h | h
        · exact hnd.1 h
        · exact he h

theorem lookupA_mapUpdate :
    ∀ (m : List (Str × Str)) (k v : Str), lookupA (mapUpdate m k v) k = some v := by
  intro m
  induction m with
  | nil => intro k v; simp [mapUpdate, lookupA]
  | cons pr rest ih =>
      intro k v
      by_cases he : pr.1 = k
      · simp [mapUpdate, if_pos he, lookupA, he]
      · simp [mapUpdate, if_neg he, lookupA, he, ih]

theorem extractFilesLoop_keys_nodup :
    ∀ (fuel : Nat) (ts : Str) (acc suite : List (Str × Str)),
      (acc.map Prod.fst).Nodup →
      extractFilesLoop fuel ts acc = .ok suite → (suite.map Prod.fst).Nodup := by
  intro fuel
  induction fuel with
  | zero =>
      intro ts acc suite _ h
      simp [extractFilesLoop] at h
  | succ n ih =>
      intro ts acc suite hnd h
      simp only [extractFilesLoop] at h
      by_cases h1 : (getFirstMatch ts testFileNameStartPattern testFileNameEndPattern).1 = []
      · rw [if_pos h1] at h
        by_cases h2 : acc = []
        · rw [if_pos h2] at h; cases h
        · rw [if_neg h2] at h
          injection h with h
          subst h
          exact hnd
      · rw [if_neg h1] at h
        by_cases h3 : (getFirstMatch
            (getFirstMatch ts testFileNameStartPattern testFileNameEndPattern).2
            codeStartPattern codeEndPattern).1 = []
        · rw [if_pos h3] at h; cases h
        · rw [if_neg h3] at h
          exact ih _ _ _ (mapUpdate_keys_nodup acc _ _ hnd) h

/-! ## Claim C6: extraction never partially succeeds -/

/-- C6: for every page text, `extractSolutionCode` returns either a
complete `(code, author)` pair or exactly one named error —
`errNoAuthorName` when the author marker is absent, `errNoSolutionCode`
when the solution-code start marker is absent — and `extractTestSuite`
returns either a non-empty file map or `errNoTestSuite`; every failure
of `extractTestSuite` is `errNoTestSuite` and no other kind. -/
theorem C6_extraction_error_kinds :
    (∀ page : Str, findAuthor page = none →
        extractSolutionCode page = .error .noAuthorName)
    ∧ (∀ (page : Str) (a : Str), findAuthor page = some a →
        strIndex page solutionCodeStartPattern = none →
        extractSolutionCode page = .error .noSolutionCode)
    ∧ (∀ page : Str,
        (∃ code author, extractSolutionCode page = .ok (code, author))
        ∨ extractSolutionCode page = .error .noAuthorName
        ∨ extractSolutionCode page = .error .noSolutionCode)
    ∧ (∀ (page : Str) (suite : List (Str × Str)),
        extractTestSuite page = .ok suite → suite ≠ [])
    ∧ (∀ (page : Str) (e : ExtractErr),
        extractTestSuite page = .error e → e = .noTestSuite) := by
  refine ⟨?_, ?_, ?_, ?_, ?_⟩
  · intro page h
    simp [extractSolutionCode, h]
  · intro page a h1 h2
    simp [extractSolutionCode, h1, getFirstMatch, h2]
  · intro page
    cases hfa : findAuthor page with
    | none => exact Or.inr (Or.inl (by simp [extractSolutionCode, hfa]))
    | some a =>
        by_cases hm : (getFirstMatch page solutionCodeStartPattern
            solutionCodeEndPattern).1 = []
        · exact Or.inr (Or.inr (by simp [extractSolutionCode, hfa, hm]))
        · exact Or.inl ⟨htmlUnescape (getFirstMatch page solutionCodeStartPattern
              solutionCodeEndPattern).1, htmlUnescape a,
            by simp [extractSolutionCode, hfa, hm]⟩
  · intro page suite h
    simp only [extractTestSuite] at h
    by_cases hts : (getFirstMatch page testSuiteStartPattern testSuiteEndPattern).1 = []
    · rw [if_pos hts] at h; cases h
    · rw [if_neg hts] at h
      exact extractFilesLoop_ok_ne_nil _ _ _ _ h
  · intro page e h
    simp only [extractTestSuite] at h
    by_cases hts : (getFirstMatch page testSuiteStartPattern testSuiteEndPattern).1 = []
    · rw [if_pos hts] at h
      injection h with h
      exact h.symm
    · rw [if_neg hts] at h
      exact extractFilesLoop_error_kind _ _ _ _ h

/-- Witness for C6: concrete pages exercising each hypothesis — a page
with no author marker, a page with an author but no code marker, a page
with a one-file suite, and a page with no suite marker. -/
theorem C6_extraction_error_kinds_witness :
    extractSolutionCode (strOf "nothing to see") = .error .noAuthorName
    ∧ extractSolutionCode (strOf "Avatar of bob, code missing") = .error .noSolutionCode
    ∧ [(strOf "k_test.go", strOf "package k")] ≠ ([] : List (Str × Str))
    ∧ ExtractErr.noTestSuite = ExtractErr.noTestSuite :=
  ⟨C6_extraction_error_kinds.1 (strOf "nothing to see") (by decide),
   C6_extraction_error_kinds.2.1 (strOf "Avatar of bob, code missing") (strOf "bob")
     (by decide) (by decide),
   C6_extraction_error_kinds.2.2.2.1
     (strOf "<div class='pane pane-2 test-suite'><h3>k_test.go</h3><code class='language-go'>package k</code></div>")
     [(strOf "k_test.go", strOf "package k")] (by rfl),
   C6_extraction_error_kinds.2.2.2.2 (strOf "no suite") .noTestSuite (by rfl)⟩

/-! ## Claim C8: repeated file names in the test-suite map -/

/-- C8 counterexample: a suite region containing the same file name
twice with different contents. The resulting map keeps the *second*
decoded content `BBB`, not the first `AAA` — later entries overwrite,
they are not skipped, so first-writer-wins fails. -/
theorem C8_counterexample :
    extractTestSuite (strOf
        "pre<div class='pane pane-2 test-suite'><h3>a_test.go</h3>x<code class='language-go'>AAA</code><h3>a_test.go</h3>y<code class='language-go'>BBB</code></div>post")
      = .ok [(strOf "a_test.go", strOf "BBB")]
    ∧ strOf "BBB" ≠ strOf "AAA" :=
  ⟨by rfl, by decide⟩

/-- C8 amended: the test-suite map has one entry per distinct file
name, and when the same file name appears more than once the later
entry overwrites the earlier one (last-writer-wins): the mapping keeps
the last decoded content for that name. -/
theorem C8_amended_last_writer_wins :
    (∀ (page : Str) (suite : List (Str × Str)),
        extractTestSuite page = .ok suite → (suite.map Prod.fst).Nodup)
    ∧ (∀ (m : List (Str × Str)) (k v : Str), lookupA (mapUpdate m k v) k = some v) := by
  constructor
  · intro page suite h
    simp only [extractTestSuite] at h
    by_cases hts : (getFirstMatch page testSuiteStartPattern testSuiteEndPattern).1 = []
    · rw [if_pos hts] at h; cases h
    · rw [if_neg hts] at h
      exact extractFilesLoop_keys_nodup _ _ _ _ (by simp) h
  · exact lookupA_mapUpdate

/-- Witness for C8 amended: the duplicate-name page of the
counterexample, whose one-entry map has duplicate-free keys, and a
concrete overwrite. -/
theorem C8_amended_last_writer_wins_witness :
    (([(strOf "a_test.go", strOf "BBB")] : List (Str × Str)).map Prod.fst).Nodup
    ∧ lookupA (mapUpdate [(strOf "a_test.go", strOf "AAA")] (strOf "a_test.go") (strOf "BBB"))
        (strOf "a_test.go") = some (strOf "BBB") :=
  ⟨C8_amended_last_writer_wins.1 (strOf
      "pre<div class='pane pane-2 test-suite'><h3>a_test.go</h3>x<code class='language-go'>AAA</code><h3>a_test.go</h3>y<code class='language-go'>BBB</code></div>post")
      [(strOf "a_test.go", strOf "BBB")] (by rfl),
   C8_amended_last_writer_wins.2 [(strOf "a_test.go", strOf "AAA")]
      (strOf "a_test.go") (strOf "BBB")⟩

/-! ## Claim C9: determinism of extraction -/

theorem replaceAllF_eq_self :
    ∀ (fuel : Nat) (s pat rep : Str), pat.head? = some '&' → '&' ∉ s →
      replaceAllF fuel s pat rep = s := by
  intro fuel
  induction fuel with
  | zero => intro s pat rep _ _; rfl
  | succ n ih =>
      intro s pat rep hh hs
      cases s with
      | nil => rfl
      | cons c rest =>
          have hnp : ¬ (pat ≠ [] ∧ pat.isPrefixOf (c :: rest)) := by
            rintro ⟨-, hpre⟩
            cases pat with
            | nil => cases hh
            | cons p ps =>
                injection hh with hh
                rw [List.isPrefixOf_iff_prefix, List.cons_prefix_cons] at hpre
                have hc : c = '&' := by rw [← hpre.1, hh]
                exact hs (show ('&') ∈ c :: rest by
                  rw [← hc]; exact List.mem_cons_self c rest)
          rw [replaceAllF, if_neg hnp,
            ih rest pat rep hh (fun hm => hs (List.mem_cons_of_mem _ hm))]

theorem normalizeCodeWith_eq_self :
    ∀ (ord : List (Str × Str)) (s : Str),
      (∀ pr ∈ ord, (pr : Str × Str).1.head? = some '&') → '&' ∉ s →
      normalizeCodeWith ord s = s := by
  intro ord
  induction ord with
  | nil => intro s _ _; rfl
  | cons pr rest ih =>
      intro s hall hs
      simp only [normalizeCodeWith, List.foldl_cons]
      rw [show replaceAll s pr.1 pr.2 = s from
        replaceAllF_eq_self s.length s pr.1 pr.2 (hall pr (by simp)) hs]
      exact ih s (fun q hq => hall q (by simp [hq])) hs

theorem entityPairs_head_amp :
    ∀ pr ∈ entityPairs, (pr : Str × Str).1.head? = some '&' := by
  intro pr hpr
  simp only [entityPairs, List.mem_cons, List.not_mem_nil, or_false] at hpr
  rcases hpr with rfl | rfl | rfl | rfl | rfl <;> rfl

/-- C9 counterexample: main.go's `normalizeCode` iterates a Go map of
replacement pairs; Go randomizes map iteration order per run, and on
the page whose code region is `&amp;lt;` two legal iteration orders of
the same five pairs yield different extraction outputs (`<` when
`&amp;` is replaced before `&lt;`, `&lt;` otherwise) — so two runs on
the same input need not yield identical outputs. -/
theorem C9_counterexample :
    entityPairs.Perm entityPairs
    ∧ [(strOf "&lt;", strOf "<"), (strOf "&amp;", strOf "&"), (strOf "&quot;", strOf "\""),
        (strOf "&gt;", strOf ">"), (strOf "&#39;", strOf "'")].Perm entityPairs
    ∧ extractSolutionCodeMain entityPairs
        (mainCodeStartPattern ++ strOf "&amp;lt;" ++ mainCodeEndPattern)
      ≠ extractSolutionCodeMain
        [(strOf "&lt;", strOf "<"), (strOf "&amp;", strOf "&"), (strOf "&quot;", strOf "\""),
          (strOf "&gt;", strOf ">"), (strOf "&#39;", strOf "'")]
        (mainCodeStartPattern ++ strOf "&amp;lt;" ++ mainCodeEndPattern) := by
  refine ⟨List.Perm.refl _, by decide, by decide⟩

/-- C9 amended: extraction is pure — the output is a function of the
page text and of the iteration order of the replacement map only — and
for page texts containing no `&` (hence no entity that one replacement
could create for another) the output is independent of that internal
iteration order; in general it is not (see the counterexample). -/
theorem C9_amended_order_independent_without_amp :
    ∀ (ord1 ord2 : List (Str × Str)) (content : Str),
      ord1.Perm entityPairs → ord2.Perm entityPairs → '&' ∉ content →
      extractSolutionCodeMain ord1 content = extractSolutionCodeMain ord2 content := by
  intro ord1 ord2 content h1 h2 hs
  cases hix : strIndex content mainCodeStartPattern with
  | none => simp [extractSolutionCodeMain, hix]
  | some ind =>
      cases hix2 : strIndex (content.drop (ind + mainCodeStartPattern.length))
          mainCodeEndPattern with
      | none => simp [extractSolutionCodeMain, hix, hix2]
      | some ind2 =>
          have hnoamp :
              '&' ∉ (content.drop (ind + mainCodeStartPattern.length)).take ind2 :=
            fun hm => hs (List.drop_subset _ _ (List.take_subset _ _ hm))
          simp only [extractSolutionCodeMain, hix, hix2]
          rw [normalizeCodeWith_eq_self ord1 _
                (fun pr hpr => entityPairs_head_amp pr (h1.mem_iff.mp hpr)) hnoamp,
              normalizeCodeWith_eq_self ord2 _
                (fun pr hpr => entityPairs_head_amp pr (h2.mem_iff.mp hpr)) hnoamp]

/-- Witness for C9 amended: an entity-free page, two distinct orders. -/
theorem C9_amended_order_independent_without_amp_witness :
    extractSolutionCodeMain
      [(strOf "&lt;", strOf "<"), (strOf "&amp;", strOf "&"), (strOf "&quot;", strOf "\""),
        (strOf "&gt;", strOf ">"), (strOf "&#39;", strOf "'")]
      (mainCodeStartPattern ++ strOf "package main" ++ mainCodeEndPattern)
    = extractSolutionCodeMain entityPairs
      (mainCodeStartPattern ++ strOf "package main" ++ mainCodeEndPattern) :=
  C9_amended_order_independent_without_amp _ entityPairs
    (mainCodeStartPattern ++ strOf "package main" ++ mainCodeEndPattern)
    (by decide) (List.Perm.refl _) (by decide)

/-! ## Claim C1: discovery builds a duplicate-free identifier set -/

theorem insertNew_nodup (acc : List Str) (x : Str) (h : acc.Nodup) :
    (insertNew acc x).Nodup := by
  unfold insertNew
  by_cases hx : x ∈ acc
  · rw [if_pos hx]; exact h
  · rw [if_neg hx, List.nodup_append]
    refine ⟨h, List.nodup_singleton x, ?_⟩
    intro b hb hbx
    have hbx' : b = x := by simpa using hbx
    exact hx (hbx' ▸ hb)

theorem insertNew_toFinset (acc : List Str) (x : Str) :
    (insertNew acc x).toFinset = insert x acc.toFinset := by
  unfold insertNew
  by_cases hx : x ∈ acc
  · rw [if_pos hx, Finset.insert_eq_self.mpr (by simpa using hx)]
  · rw [if_neg hx, List.toFinset_append]
    simp [Finset.union_comm, Finset.insert_eq]

theorem foldl_insertNew_nodup :
    ∀ (xs acc : List Str), acc.Nodup → (xs.foldl insertNew acc).Nodup := by
  intro xs
  induction xs with
  | nil => intro acc h; exact h
  | cons x xs ih =>
      intro acc h
      simpa using ih (insertNew acc x) (insertNew_nodup acc x h)

theorem foldl_insertNew_toFinset :
    ∀ (xs acc : List Str), (xs.foldl insertNew acc).toFinset = acc.toFinset ∪ xs.toFinset := by
  intro xs
  induction xs with
  | nil => intro acc; simp
  | cons x xs ih =>
      intro acc
      rw [List.foldl_cons, ih (insertNew acc x), insertNew_toFinset]
      ext y
      simp [or_comm, or_assoc, or_left_comm]

/-- The identifiers a fetched page contributes: the captured matches of
the solution-path pattern, none at all on a fetch error. -/
def pageMatchSet (pages : Nat → Option Str) (i : Nat) : Finset Str :=
  match pages i with
  | none => ∅
  | some p => (pageUUIDs p).toFinset

theorem collectUUIDs_nodup (pages : Nat → Option Str) :
    ∀ total, (collectUUIDs pages total).Nodup := by
  intro total
  induction total with
  | zero => simp [collectUUIDs]
  | succ n ih =>
      unfold collectUUIDs at *
      rw [List.range_succ, List.foldl_append]
      simp only [List.foldl_cons, List.foldl_nil]
      cases hp : pages n with
      | none => exact ih
      | some p =>
          rw [collectStep_some]
          exact foldl_insertNew_nodup _ _ ih

theorem collectUUIDs_toFinset (pages : Nat → Option Str) :
    ∀ total, (collectUUIDs pages total).toFinset
      = (Finset.range total).biUnion (pageMatchSet pages) := by
  intro total
  induction total with
  | zero => simp [collectUUIDs]
  | succ n ih =>
      unfold collectUUIDs at *
      rw [List.range_succ, List.foldl_append]
      simp only [List.foldl_cons, List.foldl_nil]
      rw [Finset.range_succ, Finset.biUnion_insert]
      cases hp : pages n with
      | none =>
          rw [collectStep_none, ih]
          simp [pageMatchSet, hp]
      | some p =>
          rw [collectStep_some, foldl_insertNew_toFinset, ih]
          simp only [pageMatchSet, hp]
          rw [Finset.union_comm]

/-- C1: the identifier set produced by discovery has no duplicates and
is exactly the union, over all successfully fetched pages, of the
identifiers captured by the solution-path pattern on that page — every
match is inserted and nothing else — and its size is the number of
distinct matching identifiers; `getSolutionUUIDs` returns exactly this
set once the page count is resolved. -/
theorem C1_discovery_dedup :
    (∀ (pages : Nat → Option Str) (total : Nat),
        (collectUUIDs pages total).Nodup
        ∧ (collectUUIDs pages total).toFinset
            = (Finset.range total).biUnion (pageMatchSet pages)
        ∧ (collectUUIDs pages total).length
            = ((Finset.range total).biUnion (pageMatchSet pages)).card)
    ∧ (∀ (fp : Str) (pages : Nat → Option Str) (digits : Str) (total : Nat),
        findGroupsNumber fp = some digits → parseUint64 digits = some total →
        getSolutionUUIDs (some fp) pages = .ok (collectUUIDs pages total)) := by
  constructor
  · intro pages total
    refine ⟨collectUUIDs_nodup pages total, collectUUIDs_toFinset pages total, ?_⟩
    rw [← collectUUIDs_toFinset pages total,
      List.toFinset_card_of_nodup (collectUUIDs_nodup pages total)]
  · intro fp pages digits total h1 h2
    simp [getSolutionUUIDs, h1, h2]

/-- Witness for C1: a two-page crawl whose pages overlap in one
identifier; the set has the three distinct identifiers, deduplicated. -/
theorem C1_discovery_dedup_witness :
    getSolutionUUIDs
        (some (strOf "solutions?page=2\">Last"))
        (fun i => if i = 0
          then some (strOf
            "solutions/00112233445566778899aabbccddeeff solutions/ffeeddccbbaa99887766554433221100")
          else some (strOf "solutions/00112233445566778899aabbccddeeff"))
      = .ok (collectUUIDs
          (fun i => if i = 0
            then some (strOf
              "solutions/00112233445566778899aabbccddeeff solutions/ffeeddccbbaa99887766554433221100")
            else some (strOf "solutions/00112233445566778899aabbccddeeff"))
          2)
    ∧ (collectUUIDs
        (fun i => if i = 0
          then some (strOf
            "solutions/00112233445566778899aabbccddeeff solutions/ffeeddccbbaa99887766554433221100")
          else some (strOf "solutions/00112233445566778899aabbccddeeff"))
        2).Nodup :=
  ⟨C1_discovery_dedup.2 (strOf "solutions?page=2\">Last") _ (strOf "2") 2
      (by decide) (by decide),
   (C1_discovery_dedup.1 _ 2).1⟩

/-! ## Claim C2: lexicographic stable sort -/

/-- The five-key sort key of a record, ordered lexicographically:
(time, throughput, memory bytes, allocation count, code size). -/
abbrev BenchKey := ℚ ×ₗ (ℚ ×ₗ (ℤ ×ₗ (ℤ ×ₗ ℕ)))

def keyOf (st : benchStats) (sz : ℕ) : BenchKey :=
  toLex (st.time, toLex (st.throughput, toLex (st.mem, toLex (st.allocs, sz))))

/-- Sort key of a record for a benchmark name (via the totalized
lookup, which equals the real dereference whenever the entry exists). -/
def keyL (bn : Str) (s : solutionStats) : BenchKey := keyOf (metOf s bn) s.size

theorem metricLess_iff_lt (lh rh : benchStats) (sa sb : ℕ) :
    metricLess lh rh sa sb = true ↔ keyOf lh sa < keyOf rh sb := by
  unfold metricLess keyOf
  simp only [Prod.Lex.lt_iff, Bool.or_eq_true, Bool.and_eq_true, decide_eq_true_eq]
  tauto

theorem statsLessTot_iff (bn : Str) (a b : solutionStats) :
    statsLessTot bn a b = true ↔ keyL bn a < keyL bn b := by
  unfold statsLessTot keyL
  exact metricLess_iff_lt _ _ _ _

theorem statsLE_iff (bn : Str) (a b : solutionStats) :
    statsLE bn a b = true ↔ keyL bn a ≤ keyL bn b := by
  constructor
  · intro hle
    have hx : ¬ statsLessTot bn b a = true := by
      intro hx
      unfold statsLE at hle
      rw [hx] at hle
      cases hle
    rw [statsLessTot_iff] at hx
    exact le_of_not_lt hx
  · intro hle
    have hx : ¬ statsLessTot bn b a = true := by
      rw [statsLessTot_iff]
      exact not_lt.mpr hle
    unfold statsLE
    cases h : statsLessTot bn b a with
    | false => rfl
    | true => exact absurd h hx

theorem statsLE_trans (bn : Str) :
    ∀ a b c : solutionStats,
      statsLE bn a b = true → statsLE bn b c = true → statsLE bn a c = true := by
  intro a b c h1 h2
  rw [statsLE_iff] at h1 h2 ⊢
  exact le_trans h1 h2

theorem statsLE_total (bn : Str) :
    ∀ a b : solutionStats, (statsLE bn a b || statsLE bn b a) = true := by
  intro a b
  rw [Bool.or_eq_true]
  rcases le_total (keyL bn a) (keyL bn b) with h | h
  · exact Or.inl ((statsLE_iff bn a b).mpr h)
  · exact Or.inr ((statsLE_iff bn b a).mpr h)

theorem sortStatsByBench_stable (bn : Str) (l : List solutionStats) (t : BenchKey) :
    (sortStatsByBench l bn).filter (fun s => decide (keyL bn s = t))
      = l.filter (fun s => decide (keyL bn s = t)) := by
  set p : solutionStats → Bool := fun s => decide (keyL bn s = t) with hp
  have hpair : (l.filter p).Pairwise (fun a b => statsLE bn a b = true) := by
    apply List.pairwise_of_forall_mem_list
    intro a ha b hb
    have ha' : keyL bn a = t := by simpa [hp] using (List.mem_filter.mp ha).2
    have hb' : keyL bn b = t := by simpa [hp] using (List.mem_filter.mp hb).2
    exact (statsLE_iff bn a b).mpr (by rw [ha', hb'])
  have hsub : List.Sublist (l.filter p) (sortStatsByBench l bn) :=
    List.sublist_mergeSort (statsLE_trans bn) (statsLE_total bn) hpair
      (List.filter_sublist l)
  have hff : (l.filter p).filter p = l.filter p :=
    List.filter_eq_self.mpr fun a ha => (List.mem_filter.mp ha).2
  have hsub2 : List.Sublist (l.filter p) ((sortStatsByBench l bn).filter p) := by
    have := hsub.filter p
    rwa [hff] at this
  have hperm : List.Perm ((sortStatsByBench l bn).filter p) (l.filter p) :=
    (List.mergeSort_perm l (statsLE bn)).filter p
  exact (hsub2.eq_of_length hperm.length_eq.symm).symm

/-- C2: `sortStatsByBench` stably sorts by strict lexicographic
precedence over (time, throughput, memory bytes, allocation count,
code size) — the comparator is `true` exactly when the five-key tuples
compare lexicographically, each later key deciding only on equality of
all earlier ones; the result is sorted and a permutation of the input;
records with equal keys keep their original relative order; and the two
concrete examples of the spec sort as stated. -/
theorem C2_sort_lexicographic_stable :
    (∀ (bn : Str) (a b : solutionStats),
        statsLessTot bn a b = true ↔ keyL bn a < keyL bn b)
    ∧ (∀ (bn : Str) (a b : solutionStats) (lh rh : benchStats),
        lookupB a.benchs bn = some lh → lookupB b.benchs bn = some rh →
        statsLess bn a b = some (statsLessTot bn a b))
    ∧ (∀ (bn : Str) (l : List solutionStats),
        (sortStatsByBench l bn).Pairwise (fun a b => statsLE bn a b = true)
        ∧ (sortStatsByBench l bn).Perm l)
    ∧ (∀ (bn : Str) (l : List solutionStats) (t : BenchKey),
        (sortStatsByBench l bn).filter (fun s => decide (keyL bn s = t))
          = l.filter (fun s => decide (keyL bn s = t)))
    ∧ sortStatsByBench
        [⟨strOf "A", [(strOf "b", ⟨5, -1, -1, -1⟩)], 10⟩,
         ⟨strOf "B", [(strOf "b", ⟨5, -1, -1, -1⟩)], 5⟩] (strOf "b")
      = [⟨strOf "B", [(strOf "b", ⟨5, -1, -1, -1⟩)], 5⟩,
         ⟨strOf "A", [(strOf "b", ⟨5, -1, -1, -1⟩)], 10⟩]
    ∧ sortStatsByBench
        [⟨strOf "A", [(strOf "b", ⟨5, -1, -1, -1⟩)], 5⟩,
         ⟨strOf "B", [(strOf "b", ⟨5, -1, -1, -1⟩)], 5⟩,
         ⟨strOf "C", [(strOf "b", ⟨4, -1, -1, -1⟩)], 5⟩] (strOf "b")
      = [⟨strOf "C", [(strOf "b", ⟨4, -1, -1, -1⟩)], 5⟩,
         ⟨strOf "A", [(strOf "b", ⟨5, -1, -1, -1⟩)], 5⟩,
         ⟨strOf "B", [(strOf "b", ⟨5, -1, -1, -1⟩)], 5⟩] := by
  refine ⟨statsLessTot_iff, ?_, ?_, sortStatsByBench_stable, ?_, ?_⟩
  · intro bn a b lh rh hla hlb
    simp [statsLess, statsLessTot, metOf, hla, hlb]
  · intro bn l
    exact ⟨List.sorted_mergeSort (statsLE_trans bn) (statsLE_total bn) l,
      List.mergeSort_perm l (statsLE bn)⟩
  · norm_num [sortStatsByBench, List.mergeSort, List.splitInTwo, List.splitAt,
      List.splitAt.go, List.merge, statsLE, statsLessTot, metOf, lookupB, metricLess]
  · norm_num [sortStatsByBench, List.mergeSort, List.splitInTwo, List.splitAt,
      List.splitAt.go, List.merge, statsLE, statsLessTot, metOf, lookupB, metricLess]

/-- Witness for C2: the comparator-dereference bridge applied at two
concrete records that both carry the benchmark. -/
theorem C2_sort_lexicographic_stable_witness :
    statsLess (strOf "b")
      ⟨strOf "A", [(strOf "b", ⟨5, -1, -1, -1⟩)], 10⟩
      ⟨strOf "B", [(strOf "b", ⟨5, -1, -1, -1⟩)], 5⟩
    = some (statsLessTot (strOf "b")
        ⟨strOf "A", [(strOf "b", ⟨5, -1, -1, -1⟩)], 10⟩
        ⟨strOf "B", [(strOf "b", ⟨5, -1, -1, -1⟩)], 5⟩) :=
  C2_sort_lexicographic_stable.2.1 (strOf "b")
    ⟨strOf "A", [(strOf "b", ⟨5, -1, -1, -1⟩)], 10⟩
    ⟨strOf "B", [(strOf "b", ⟨5, -1, -1, -1⟩)], 5⟩
    ⟨5, -1, -1, -1⟩ ⟨5, -1, -1, -1⟩ (by decide) (by decide)

/-! ## Claim C7: round-trip of marker-delimited extraction -/

/-- The first occurrence of a pattern beginning with `<` in `A ++ s`,
when `A` is `<`-free and the pattern starts `s`, is exactly at `|A|`. -/
theorem strIndex_append_left_free (A s pat : Str)
    (hpat : pat.head? = some '<')
    (hA : ∀ c ∈ A, c ≠ '<')
    (hpre : pat.isPrefixOf s) :
    strIndex (A ++ s) pat = some A.length := by
  rw [strIndex_eq_some_iff]
  constructor
  · unfold occursAt
    rw [List.drop_left]
    exact hpre
  · intro j hj hocc
    unfold occursAt at hocc
    rw [List.drop_append_of_le_length (by omega)] at hocc
    cases pat with
    | nil => cases hpat
    | cons p pt =>
        injection hpat with hpat
        cases hd : A.drop j with
        | nil =>
            have : A.length - j = 0 := by
              have := congrArg List.length hd
              simpa using this
            omega
        | cons c ct =>
            rw [hd] at hocc
            rw [List.isPrefixOf_iff_prefix] at hocc
            have hceq : p = c := (List.cons_prefix_cons.mp (by simpa using hocc)).1
            exact hA c (List.mem_of_mem_drop (hd ▸ List.mem_cons_self c ct)) (by
              rw [← hceq, hpat])

/-- In `payload ++ ep ++ rest` with `ep` not occurring in `payload` and
`ep` having no non-trivial period, the first occurrence of `ep` is at
the payload boundary. -/
theorem strIndex_payload_append (payload ep rest : Str)
    (hnc : strIndex payload ep = none)
    (hper : ∀ k, 0 < k → k < ep.length → ep.drop k ≠ ep.take (ep.length - k)) :
    strIndex (payload ++ ep ++ rest) ep = some payload.length := by
  rw [List.append_assoc, strIndex_eq_some_iff]
  constructor
  · unfold occursAt
    rw [List.drop_left, List.isPrefixOf_iff_prefix]
    exact List.prefix_append ep rest
  · intro j hj hocc
    have hnone := (strIndex_eq_none_iff payload ep).mp hnc
    unfold occursAt at hocc
    rw [List.drop_append_of_le_length (le_of_lt hj), List.isPrefixOf_iff_prefix] at hocc
    by_cases hcase : ep.length ≤ (payload.drop j).length
    · -- the occurrence would lie inside the payload
      apply hnone j
      unfold occursAt
      rw [List.isPrefixOf_iff_prefix, List.prefix_iff_eq_take]
      rw [List.prefix_iff_eq_take, List.take_append_of_le_length hcase] at hocc
      exact hocc
    · -- the occurrence would straddle the boundary: a period of `ep`
      push_neg at hcase
      have hk0 : 0 < (payload.drop j).length := by
        simp only [List.length_drop]
        omega
      rw [List.prefix_iff_eq_take, List.take_append_eq_append_take,
        List.take_of_length_le (le_of_lt hcase),
        List.take_append_of_le_length (by omega)] at hocc
      have hdropped : ep.drop (payload.drop j).length
          = ep.take (ep.length - (payload.drop j).length) := by
        have h2 := congrArg (List.drop (payload.drop j).length) hocc
        rwa [List.drop_left' rfl] at h2
      exact hper (payload.drop j).length hk0 hcase hdropped

/-- The no-period property of the solution-code end marker. -/
theorem solutionCodeEndPattern_no_period :
    ∀ k, 0 < k → k < solutionCodeEndPattern.length →
      solutionCodeEndPattern.drop k
        ≠ solutionCodeEndPattern.take (solutionCodeEndPattern.length - k) := by
  intro k hk0 hklt
  have hlen : solutionCodeEndPattern.length = 13 := rfl
  rw [hlen] at hklt
  interval_cases k <;> decide

/-- Markered round trip of `getFirstMatch` for the solution-code marker
pair, under a `<`-free prefix `A` (the part of the page before the code
block): the match is exactly the payload and the remainder is exactly
the trailing text. -/
theorem getFirstMatch_roundTrip (A payload rest : Str)
    (hA : ∀ c ∈ A, c ≠ '<')
    (hnc : strIndex payload solutionCodeEndPattern = none) :
    getFirstMatch
        (A ++ (solutionCodeStartPattern ++ payload ++ solutionCodeEndPattern ++ rest))
        solutionCodeStartPattern solutionCodeEndPattern
      = (payload, rest) := by
  have h1 : strIndex
      (A ++ (solutionCodeStartPattern ++ payload ++ solutionCodeEndPattern ++ rest))
      solutionCodeStartPattern = some A.length :=
    strIndex_append_left_free _ _ _ (by rfl) hA
      (by rw [List.isPrefixOf_iff_prefix]
          rw [show solutionCodeStartPattern ++ payload ++ solutionCodeEndPattern ++ rest
              = solutionCodeStartPattern ++ (payload ++ solutionCodeEndPattern ++ rest) by
            simp [List.append_assoc]]
          exact List.prefix_append _ _)
  have hdrop : (A ++ (solutionCodeStartPattern ++ payload ++ solutionCodeEndPattern ++ rest)).drop
      (A.length + solutionCodeStartPattern.length)
      = payload ++ solutionCodeEndPattern ++ rest := by
    rw [show A ++ (solutionCodeStartPattern ++ payload ++ solutionCodeEndPattern ++ rest)
        = (A ++ solutionCodeStartPattern) ++ (payload ++ solutionCodeEndPattern ++ rest) by
      simp [List.append_assoc]]
    exact List.drop_left' (by simp)
  have h2 : strIndex (payload ++ solutionCodeEndPattern ++ rest) solutionCodeEndPattern
      = some payload.length := by
    rw [List.append_assoc]
    rw [← List.append_assoc]
    exact strIndex_payload_append payload solutionCodeEndPattern rest hnc
      solutionCodeEndPattern_no_period
  have htake : List.take payload.length (payload ++ solutionCodeEndPattern ++ rest)
      = payload := by
    rw [List.append_assoc]
    exact List.take_left payload _
  have hdrop2 : List.drop (payload.length + solutionCodeEndPattern.length)
      (payload ++ solutionCodeEndPattern ++ rest) = rest :=
    List.drop_left' (by simp)
  unfold getFirstMatch
  rw [h1]
  simp only []
  rw [hdrop, h2]
  show (List.take payload.length (payload ++ solutionCodeEndPattern ++ rest),
      List.drop (payload.length + solutionCodeEndPattern.length)
        (payload ++ solutionCodeEndPattern ++ rest)) = (payload, rest)
  rw [htake, hdrop2]

theorem findAuthor_of_authorAt (s a : Str) (h : authorAt s = some a) :
    findAuthor s = some a := by
  cases s with
  | nil => simpa [findAuthor] using h
  | cons c rest => simp [findAuthor, h]

/-- C7: for every payload not containing the end marker, a synthetic
page built as start marker ++ payload ++ end marker (++ trailing text)
extracts to exactly that payload: `getFirstMatch` isolates the region
between the start marker's end and the nearest following end marker,
and `extractSolutionCode` returns the payload HTML-entity-decoded
together with the page's author. -/
theorem C7_marker_roundTrip :
    (∀ (A payload rest : Str), (∀ c ∈ A, c ≠ '<') →
        strIndex payload solutionCodeEndPattern = none →
        getFirstMatch
            (A ++ (solutionCodeStartPattern ++ payload ++ solutionCodeEndPattern ++ rest))
            solutionCodeStartPattern solutionCodeEndPattern
          = (payload, rest))
    ∧ (∀ (payload rest : Str),
        strIndex payload solutionCodeEndPattern = none → payload ≠ [] →
        extractSolutionCode
            (strOf "Avatar of ann " ++ (solutionCodeStartPattern ++ payload
              ++ solutionCodeEndPattern ++ rest))
          = .ok (htmlUnescape payload, strOf "ann")) := by
  constructor
  · exact getFirstMatch_roundTrip
  · intro payload rest hnc hne
    have hauth : authorAt (strOf "Avatar of ann " ++ (solutionCodeStartPattern ++ payload
        ++ solutionCodeEndPattern ++ rest)) = some (strOf "ann") := by
      unfold authorAt
      rw [if_pos (by
        rw [List.isPrefixOf_iff_prefix]
        rw [show strOf "Avatar of ann " ++ (solutionCodeStartPattern ++ payload
            ++ solutionCodeEndPattern ++ rest)
            = avatarMarker ++ (strOf "ann " ++ (solutionCodeStartPattern ++ payload
              ++ solutionCodeEndPattern ++ rest)) from rfl]
        exact List.prefix_append _ _)]
      rw [show (strOf "Avatar of ann " ++ (solutionCodeStartPattern ++ payload
          ++ solutionCodeEndPattern ++ rest)).drop avatarMarker.length
          = strOf "ann " ++ (solutionCodeStartPattern ++ payload
            ++ solutionCodeEndPattern ++ rest) from List.drop_left' rfl]
      simp +decide [List.takeWhile_cons, isWordChar, strOf]
    have hm := getFirstMatch_roundTrip (strOf "Avatar of ann ") payload rest
      (by decide) hnc
    unfold extractSolutionCode
    rw [findAuthor_of_authorAt _ _ hauth]
    simp only [hm]
    rw [if_neg hne]
    rfl

/-- Witness for C7: a concrete payload and trailing text. -/
theorem C7_marker_roundTrip_witness :
    getFirstMatch
        ([] ++ (solutionCodeStartPattern ++ strOf "package main &amp; x"
          ++ solutionCodeEndPattern ++ strOf "trail"))
        solutionCodeStartPattern solutionCodeEndPattern
      = (strOf "package main &amp; x", strOf "trail")
    ∧ extractSolutionCode
        (strOf "Avatar of ann " ++ (solutionCodeStartPattern ++ strOf "package main &amp; x"
          ++ solutionCodeEndPattern ++ strOf "trail"))
      = .ok (htmlUnescape (strOf "package main &amp; x"), strOf "ann") :=
  ⟨C7_marker_roundTrip.1 [] (strOf "package main &amp; x") (strOf "trail")
      (by decide) (by decide),
   C7_marker_roundTrip.2 (strOf "package main &amp; x") (strOf "trail")
      (by decide) (by decide)⟩

/-! ## Claim C3: benchmark report line parsing -/

theorem mlit_eq_some (pat s : Str) (k : Str → Option Str) (r : Str)
    (h : mlit pat s k = some r) :
    pat.isPrefixOf s ∧ k (s.drop pat.length) = some r := by
  unfold mlit at h
  by_cases hp : pat.isPrefixOf s
  · rw [if_pos hp] at h
    exact ⟨hp, h⟩
  · rw [if_neg hp] at h
    cases h

theorem manyCls_eq_some (p : Char → Bool) :
    ∀ (s : Str) (k : Str → Option Str) (r : Str),
      manyCls p s k = some r →
      ∃ pre suf, s = pre ++ suf ∧ (∀ c ∈ pre, p c) ∧ k suf = some r := by
  intro s
  induction s with
  | nil =>
      intro k r h
      exact ⟨[], [], rfl, by simp, by simpa [manyCls] using h⟩
  | cons c rest ih =>
      intro k r h
      unfold manyCls at h
      by_cases hc : p c
      · rw [if_pos hc] at h
        rcases hsplit : manyCls p rest k with _ | v
        · rw [hsplit] at h
          simp only [Option.none_orElse] at h
          exact ⟨[], c :: rest, rfl, by simp, h⟩
        · rw [hsplit] at h
          simp only [Option.some_orElse] at h
          injection h with h
          subst h
          obtain ⟨pre, suf, heq, hall, hk⟩ := ih k v hsplit
          refine ⟨c :: pre, suf, by simp [heq], ?_, hk⟩
          intro d hd
          rcases List.mem_cons.mp hd with rfl | hd
          · exact hc
          · exact hall d hd
      · rw [if_neg hc] at h
        exact ⟨[], c :: rest, rfl, by simp, h⟩

theorem someCls_eq_some (p : Char → Bool) (s : Str) (k : Str → Option Str) (r : Str)
    (h : someCls p s k = some r) :
    ∃ pre suf, s = pre ++ suf ∧ pre ≠ [] ∧ (∀ c ∈ pre, p c) ∧ k suf = some r := by
  cases s with
  | nil => simp [someCls] at h
  | cons c rest =>
      simp only [someCls] at h
      by_cases hc : p c
      · rw [if_pos hc] at h
        obtain ⟨pre, suf, heq, hall, hk⟩ := manyCls_eq_some p rest k r h
        refine ⟨c :: pre, suf, by simp [heq], by simp, ?_, hk⟩
        intro d hd
        rcases List.mem_cons.mp hd with rfl | hd
        · exact hc
        · exact hall d hd
      · rw [if_neg hc] at h
        cases h

/-- A successful anchored match of `benchNameRE` decomposes the input:
the literal `Benchmark`, a non-empty alnum/underscore run, the rest. -/
theorem runM_benchName_shape (s rem : Str) (h : runM benchNameAtM s = some rem) :
    ∃ run, s = strOf "Benchmark" ++ (run ++ rem) ∧ run ≠ []
      ∧ ∀ c ∈ run, isAlnumU c := by
  unfold runM benchNameAtM at h
  obtain ⟨hpre, hk⟩ := mlit_eq_some _ _ _ _ h
  obtain ⟨run, suf, heq, hne, hall, hk2⟩ := someCls_eq_some _ _ _ _ hk
  injection hk2 with hk2
  subst hk2
  obtain ⟨t, ht⟩ := List.isPrefixOf_iff_prefix.mp hpre
  refine ⟨run, ?_, hne, hall⟩
  have hdrop : s.drop (strOf "Benchmark").length = t := by
    rw [← ht]
    exact List.drop_left _ _
  rw [← ht, hdrop.symm, heq]

/-- The name captured by `benchNameRE.FindString` never contains a
dash: the `-N` parallel suffix of a benchmark line is discarded. -/
theorem reFind_benchName_no_dash :
    ∀ (l mt rest : Str), reFind benchNameAtM l = some (mt, rest) → ('-') ∉ mt := by
  intro l
  induction l with
  | nil =>
      intro mt rest h
      simp only [reFind] at h
      cases hr : runM benchNameAtM [] with
      | none => rw [hr] at h; cases h
      | some rem =>
          obtain ⟨run, heq, -, -⟩ := runM_benchName_shape [] rem hr
          cases heq
  | cons c rest0 ih =>
      intro mt rest h
      unfold reFind at h
      cases hr : runM benchNameAtM (c :: rest0) with
      | none =>
          rw [hr] at h
          exact ih mt rest h
      | some rem =>
          rw [hr] at h
          rw [Option.some_inj, Prod.mk.injEq] at h
          obtain ⟨h1, -⟩ := h
          obtain ⟨run, heq, -, hall⟩ := runM_benchName_shape _ rem hr
          have hmt : mt = strOf "Benchmark" ++ run := by
            rw [← h1, heq]
            rw [show strOf "Benchmark" ++ (run ++ rem)
                = (strOf "Benchmark" ++ run) ++ rem from by rw [List.append_assoc]]
            exact List.take_left' (by simp [List.length_append]; omega)
          intro hd
          rcases List.mem_append.mp (hmt ▸ hd) with hmem | hmem
          · revert hmem; decide
          · have := hall _ hmem
            simp [isAlnumU] at this

/-- C3: the claimed concrete line parses to name `BenchmarkFoo` (the
`-4` suffix discarded), time `523.4`, memory `128`, allocations `3`,
throughput absent (sentinel `-1`); in general a line without the
time pattern aborts parsing (the Go code panics), a line without the
throughput pattern keeps the `-1` throughput sentinel, a line without
the memory pattern keeps the `-1` memory/allocation sentinels, and the
captured benchmark name never contains a dash. -/
theorem C3_runBench_line_parsing :
    (∃ st : benchStats,
        runBench (strOf "BenchmarkFoo-4  1000  523.4 ns/op  128 B/op  3 allocs/op")
          = .ok [(strOf "BenchmarkFoo", st)]
        ∧ st.time = 5234 / 10 ∧ st.throughput = -1 ∧ st.mem = 128 ∧ st.allocs = 3)
    ∧ (∀ l : Str,
        (findTimeTok l = none → parseBenchLine l = .error .noTimeData)
        ∧ (∀ st : benchStats, parseBenchLine l = .ok st →
            (findThroughputTok l = none → st.throughput = -1)
            ∧ (findMemToks l = none → st.mem = -1 ∧ st.allocs = -1)))
    ∧ (∀ (l mt rest : Str), reFind benchNameAtM l = some (mt, rest) → ('-') ∉ mt) := by
  refine ⟨⟨⟨((523 : ℕ) : ℚ) + ((4 : ℕ) : ℚ) / ((10 : ℚ) ^ (1 : ℕ)), -1,
      ((128 : ℕ) : ℤ), ((3 : ℕ) : ℤ)⟩, by rfl, by push_cast; norm_num, rfl,
      by norm_num, by norm_num⟩, ?_, reFind_benchName_no_dash⟩
  intro l
  constructor
  · intro h
    simp [parseBenchLine, Bind.bind, Except.bind, Pure.pure, Except.pure, Functor.map, Except.map, throw, throwThe, MonadExceptOf.throw, h]
  · intro st hok
    cases h1 : findTimeTok l with
    | none => simp [parseBenchLine, Bind.bind, Except.bind, Pure.pure, Except.pure, Functor.map, Except.map, throw, throwThe, MonadExceptOf.throw, h1] at hok
    | some tok =>
        cases h2 : parseFloatGo tok with
        | none => simp [parseBenchLine, Bind.bind, Except.bind, Pure.pure, Except.pure, Functor.map, Except.map, throw, throwThe, MonadExceptOf.throw, h1, h2] at hok
        | some t =>
            constructor
            · intro htp
              cases h3 : findMemToks l with
              | none =>
                  simp [parseBenchLine, Bind.bind, Except.bind, Pure.pure, Except.pure, Functor.map, Except.map, throw, throwThe, MonadExceptOf.throw, h1, h2, htp, h3] at hok
                  rw [← hok]
              | some p2 =>
                  rcases p2 with ⟨t1, t2⟩
                  cases h4 : parseInt64 t1 with
                  | none => simp [parseBenchLine, Bind.bind, Except.bind, Pure.pure, Except.pure, Functor.map, Except.map, throw, throwThe, MonadExceptOf.throw, h1, h2, htp, h3, h4] at hok
                  | some v1 =>
                      cases h5 : parseInt64 t2 with
                      | none => simp [parseBenchLine, Bind.bind, Except.bind, Pure.pure, Except.pure, Functor.map, Except.map, throw, throwThe, MonadExceptOf.throw, h1, h2, htp, h3, h4, h5] at hok
                      | some v2 =>
                          simp [parseBenchLine, Bind.bind, Except.bind, Pure.pure, Except.pure, Functor.map, Except.map, throw, throwThe, MonadExceptOf.throw, h1, h2, htp, h3, h4, h5] at hok
                          rw [← hok]
            · intro hmem
              cases h3 : findThroughputTok l with
              | none =>
                  simp [parseBenchLine, Bind.bind, Except.bind, Pure.pure, Except.pure, Functor.map, Except.map, throw, throwThe, MonadExceptOf.throw, h1, h2, h3, hmem] at hok
                  rw [← hok]
                  exact ⟨rfl, rfl⟩
              | some tok2 =>
                  cases h4 : parseFloatGo tok2 with
                  | none => simp [parseBenchLine, Bind.bind, Except.bind, Pure.pure, Except.pure, Functor.map, Except.map, throw, throwThe, MonadExceptOf.throw, h1, h2, h3, h4] at hok
                  | some v =>
                      simp [parseBenchLine, Bind.bind, Except.bind, Pure.pure, Except.pure, Functor.map, Except.map, throw, throwThe, MonadExceptOf.throw, h1, h2, h3, h4, hmem] at hok
                      rw [← hok]
                      exact ⟨rfl, rfl⟩

/-- Witness for C3: a time-less line aborts, and the concrete line's
captured name is dash-free. -/
theorem C3_runBench_line_parsing_witness :
    parseBenchLine (strOf "no time here") = .error .noTimeData
    ∧ ('-') ∉ strOf "BenchmarkFoo" :=
  ⟨(C3_runBench_line_parsing.2.1 (strOf "no time here")).1 (by rfl),
   C3_runBench_line_parsing.2.2
     (strOf "BenchmarkFoo-4  1000  523.4 ns/op  128 B/op  3 allocs/op")
     (strOf "BenchmarkFoo")
     (strOf "-4  1000  523.4 ns/op  128 B/op  3 allocs/op") (by rfl)⟩

end ExercismBench
